import Mathlib

/-!
Verification of the utility layer of the notion-py repository
(`notion/utils.py`): the identifier normalizer `extract_id` and the
dotted-path resolver `get_by_path`.

Python strings are embedded as `List Char`; the Python string operations
used by the source (`str.split`, `str.replace`, `str.strip`, `int(...)`,
`uuid.UUID(...)`) are embedded below following CPython semantics on the
fragment the source exercises (ASCII inputs).  Fallible Python code is
embedded with an explicit error channel: `get_by_path` returns
`Except PyExn PyVal` where `Except.error e` means the Python call raises
the uncaught exception `e`, and `extract_id` returns
`Except PyStr PyStr` where the error payload is the string carried by the
raised `InvalidNotionIdentifier`.
-/

namespace NotionUtils

/-- A Python `str` value, embedded as its list of characters. -/
abbrev PyStr := List Char

/-- Turn a Lean string literal into the embedded Python string. -/
def toL (s : String) : PyStr := s.toList

/-- The Python exception kinds that `get_by_path` can meet:
`KeyError`, `TypeError` and `IndexError` are caught by its `except`
clause; `ValueError` (from `int(key)`) is not. -/
inductive PyExn where
  | keyError
  | typeError
  | indexError
  | valueError
deriving DecidableEq

/-- A Python value as traversed by `get_by_path`: scalars, strings,
lists and (string-keyed) dicts. -/
inductive PyVal where
  | none
  | bool (b : Bool)
  | int (n : Int)
  | str (s : PyStr)
  | list (xs : List PyVal)
  | dict (kvs : List (PyStr × PyVal))

/-- The `path` argument of `get_by_path`: either a single dotted string
or a pre-split sequence of segment strings. -/
inductive PathArg where
  | str (s : PyStr)
  | list (segs : List PyStr)

/- ### Embedded Python string operations -/

/-- Python `s.split(sep)` for a single-character separator `sep`. -/
def pySplitChar (sep : Char) : PyStr → List PyStr
  | [] => [[]]
  | c :: rest =>
    if c = sep then [] :: pySplitChar sep rest
    else
      match pySplitChar sep rest with
      | [] => [[c]]
      | g :: gs => (c :: g) :: gs

/-- Fuel-indexed worker for Python `s.split(sep)` with a multi-character
separator.  The fuel only serves termination; `pySplitStr` supplies
enough fuel for it never to run out. -/
def pySplitAux (sep : PyStr) : Nat → PyStr → List PyStr
  | _, [] => [[]]
  | 0, s => [s]
  | fuel + 1, c :: rest =>
    if sep.isPrefixOf (c :: rest) then
      [] :: pySplitAux sep fuel ((c :: rest).drop sep.length)
    else
      match pySplitAux sep fuel rest with
      | [] => [[c]]
      | g :: gs => (c :: g) :: gs

/-- Python `s.split(sep)` for a (nonempty) separator string `sep`. -/
def pySplitStr (sep : PyStr) (s : PyStr) : List PyStr :=
  pySplitAux sep s.length s

/-- Python `s.split(sep)[-1]` for a one-character separator: `split`
always returns a nonempty list, so `[-1]` is its last element. -/
def afterLastChar (sep : Char) (s : PyStr) : PyStr :=
  (pySplitChar sep s).getLastD []

/-- Python `s.split(sep)[0]` for a one-character separator. -/
def beforeFirstChar (sep : Char) (s : PyStr) : PyStr :=
  (pySplitChar sep s).headD []

/-- Python `s.split(sep)[-1]` for a separator string. -/
def afterLastStr (sep : PyStr) (s : PyStr) : PyStr :=
  (pySplitStr sep s).getLastD []

/-- Fuel-indexed worker for Python `s.replace(old, new)` (all
occurrences, scanned left to right). -/
def pyReplaceAux (old new : PyStr) : Nat → PyStr → PyStr
  | _, [] => []
  | 0, s => s
  | fuel + 1, c :: rest =>
    if old.isPrefixOf (c :: rest) then
      new ++ pyReplaceAux old new fuel ((c :: rest).drop old.length)
    else
      c :: pyReplaceAux old new fuel rest

/-- Python `s.replace(old, new)` for nonempty `old`. -/
def pyReplace (old new s : PyStr) : PyStr :=
  pyReplaceAux old new s.length s

/-- Python `s.strip(chars)`: remove the characters in `chars` from both
ends of `s`. -/
def pyStripSet (chars : PyStr) (s : PyStr) : PyStr :=
  ((s.dropWhile (fun c => c ∈ chars)).reverse.dropWhile
    (fun c => c ∈ chars)).reverse

/-- The whitespace stripping Python `int(...)` applies to both ends of
its string argument. -/
def pyTrimWS (s : PyStr) : PyStr :=
  ((s.dropWhile Char.isWhitespace).reverse.dropWhile
    Char.isWhitespace).reverse

/- ### Embedded Python integer parsing -/

/-- Value of a decimal digit character, if it is one. -/
def decVal (c : Char) : Option Nat :=
  if '0' ≤ c ∧ c ≤ '9' then some (c.toNat - 48) else Option.none

/-- Value of a hexadecimal digit character, if it is one. -/
def hexVal (c : Char) : Option Nat :=
  if '0' ≤ c ∧ c ≤ '9' then some (c.toNat - 48)
  else if 'a' ≤ c ∧ c ≤ 'f' then some (c.toNat - 87)
  else if 'A' ≤ c ∧ c ≤ 'F' then some (c.toNat - 55)
  else Option.none

/-- Digit scanner of CPython's string-to-int conversion: a nonempty
digit sequence in which single underscores may separate digits.  The
flag records whether the previous character was a digit (so an
underscore is legal and so the end of input is legal). -/
def digitsGo (base : Nat) (dv : Char → Option Nat) :
    Nat → Bool → PyStr → Option Nat
  | acc, prev, [] => if prev then some acc else Option.none
  | acc, prev, c :: rest =>
    match dv c with
    | some d => digitsGo base dv (acc * base + d) true rest
    | Option.none =>
      if c = '_' ∧ prev then digitsGo base dv acc false rest
      else Option.none

/-- Python `int(s)` (base 10) on a string: strip whitespace, optional
sign, then digits (ASCII fragment of CPython's behavior).  `Option.none`
is a raised `ValueError`. -/
def pyIntDec (s : PyStr) : Option Int :=
  let t := pyTrimWS s
  match t with
  | '+' :: r => (digitsGo 10 decVal 0 false r).map Int.ofNat
  | '-' :: r => (digitsGo 10 decVal 0 false r).map (fun n => -(Int.ofNat n))
  | r => (digitsGo 10 decVal 0 false r).map Int.ofNat

/-- Remove an optional leading base marker from the digit part of a
base-16 string-to-int conversion, together with one underscore that
CPython allows right after the marker. -/
def dropHexMark : PyStr → PyStr
  | c1 :: c2 :: r =>
    if c1 = '0' ∧ (c2 = 'x' ∨ c2 = 'X') then
      match r with
      | r0 :: r2 => if r0 = '_' then r2 else r0 :: r2
      | [] => []
    else c1 :: c2 :: r
  | s => s

/-- Python `int(s, 16)` on a string: strip whitespace, optional sign,
optional base marker, then hex digits (ASCII fragment of CPython's
behavior).  `Option.none` is a raised `ValueError`. -/
def pyIntHexBase16 (s : PyStr) : Option Int :=
  let t := pyTrimWS s
  match t with
  | '+' :: r => (digitsGo 16 hexVal 0 false (dropHexMark r)).map Int.ofNat
  | '-' :: r =>
    (digitsGo 16 hexVal 0 false (dropHexMark r)).map (fun n => -(Int.ofNat n))
  | r => (digitsGo 16 hexVal 0 false (dropHexMark r)).map Int.ofNat

/- ### Embedded `uuid.UUID` -/

/-- Lowercase hexadecimal digit character for a value below 16. -/
def hexChar (d : Nat) : Char :=
  if d < 10 then Char.ofNat (48 + d) else Char.ofNat (87 + d)

/-- `k`-digit zero-padded lowercase hexadecimal rendering of `n`
(CPython `'%032x' % n` when `k = 32` and `n < 16^k`). -/
def toHexPad : Nat → Nat → PyStr
  | 0, _ => []
  | k + 1, n => toHexPad k (n / 16) ++ [hexChar (n % 16)]

/-- `str(uuid.UUID(int = n))`: the canonical dashed lowercase
8-4-4-4-12 rendering of the 128-bit value `n`. -/
def uuidStr (n : Nat) : PyStr :=
  let h := toHexPad 32 n
  h.take 8 ++ ('-' :: ((h.drop 8).take 4 ++ ('-' :: ((h.drop 12).take 4 ++
    ('-' :: ((h.drop 16).take 4 ++ ('-' :: h.drop 20)))))))

/-- The two curly-brace characters stripped by `uuid.UUID`. -/
def BRACES : PyStr := [Char.ofNat 123, Char.ofNat 125]

/-- `2 ^ 128`, the exclusive upper bound of the UUID integer range. -/
def INT128 : Int := 340282366920938463463374607431768211456

/-- `uuid.UUID(hex = s).int`: CPython removes every occurrence of
`urn:` and `uuid:`, strips curly braces from both ends, removes every
dash, requires exactly 32 remaining characters, converts with
`int(_, 16)` and checks the 128-bit range.  `Option.none` is a raised
`ValueError`. -/
def pyUUID (s : PyStr) : Option Nat :=
  let h1 := pyReplace (toL "urn:") [] s
  let h2 := pyReplace (toL "uuid:") [] h1
  let h3 := pyStripSet BRACES h2
  let h4 := pyReplace ['-'] [] h3
  if h4.length = 32 then
    match pyIntHexBase16 h4 with
    | some v => if 0 ≤ v ∧ v < INT128 then some v.toNat else Option.none
    | Option.none => Option.none
  else Option.none

/- ### extract_id -/

/-- Modelled from the spec: the known service base-URL prefix.  The
constant `BASE_URL` lives in `notion/settings.py`, which is not among
the provided sources; the spec identifies the service as the notion.so
note-taking service, whose page URL root this is. -/
def BASE_URL : PyStr := toL "https://www.notion.so"

/-- The literal legacy query-parameter marker `&p=`. -/
def AMP_P : PyStr := toL "&p="

/-- The URL-stripping chain of `extract_id`, in source order:
`.split("#")[-1].split("/")[-1].split("&p=")[-1].split("?")[0].split("-")[-1]`. -/
def urlTransformChain (s : PyStr) : PyStr :=
  afterLastChar '-'
    (beforeFirstChar '?'
      (afterLastStr AMP_P
        (afterLastChar '/'
          (afterLastChar '#' s))))

/-- `extract_id(url_or_id)` from `notion/utils.py`: strip the URL
decorations when the input starts with `BASE_URL`, then parse with
`uuid.UUID` and return its string form; on a parse failure raise
`InvalidNotionIdentifier` carrying the original input
(`Except.error` holds the exception's payload string). -/
def extract_id (url_or_id : PyStr) : Except PyStr PyStr :=
  let stripped :=
    if BASE_URL.isPrefixOf url_or_id then
      afterLastChar '-'
        (beforeFirstChar '?'
          (afterLastStr AMP_P
            (afterLastChar '/'
              (afterLastChar '#' url_or_id))))
    else url_or_id
  match pyUUID stripped with
  | some n => Except.ok (uuidStr n)
  | Option.none => Except.error url_or_id

/- ### get_by_path -/

/-- Python list indexing `xs[i]`: non-negative indices from the front,
negative indices from the back, `IndexError` (here `Option.none`)
outside the range. -/
def pyListGet (xs : List PyVal) (i : Int) : Option PyVal :=
  if 0 ≤ i then xs.get? i.toNat
  else if 0 ≤ i + xs.length then xs.get? (i + xs.length).toNat
  else Option.none

/-- One iteration of the loop body of `get_by_path`:
`if isinstance(value, list): key = int(key)` then `value = value[key]`,
with the exception each Python operation raises on failure. -/
def stepKey (value : PyVal) (key : PyStr) : Except PyExn PyVal :=
  match value with
  | .list xs =>
    match pyIntDec key with
    | Option.none => Except.error .valueError
    | some i =>
      match pyListGet xs i with
      | some v => Except.ok v
      | Option.none => Except.error .indexError
  | .dict kvs =>
    match kvs.lookup key with
    | some v => Except.ok v
    | Option.none => Except.error .keyError
  | _ => Except.error .typeError

/-- The local variables of `get_by_path` that survive the loop: the
`obj` argument and the cursor `value`.  The loop body only ever
reassigns `value`. -/
structure Locals where
  obj : PyVal
  value : PyVal

/-- The `for key in path` loop of `get_by_path`, threading the local
variables; stops at the first exception, returning the locals at that
point together with the exception. -/
def loopGo : List PyStr → Locals → Locals × Option PyExn
  | [], l => (l, Option.none)
  | k :: ks, l =>
    match stepKey l.value k with
    | Except.ok v => loopGo ks ⟨l.obj, v⟩
    | Except.error e => (l, some e)

/-- The segment list `get_by_path` traverses: a string path is split on
`"."`, a pre-split sequence is used as is. -/
def segsOf : PathArg → List PyStr
  | .str s => pySplitChar '.' s
  | .list segs => segs

/-- `get_by_path` at the level of its local variables: run the loop,
then apply the `except (KeyError, TypeError, IndexError)` clause, which
sets `value = default`; a `ValueError` stays raised. -/
def get_by_path_locals (path : PathArg) (obj default : PyVal) :
    Locals × Option PyExn :=
  match loopGo (segsOf path) ⟨obj, obj⟩ with
  | (l, Option.none) => (l, Option.none)
  | (l, some e) =>
    match e with
    | .valueError => (l, some .valueError)
    | _ => (⟨l.obj, default⟩, Option.none)

/-- `get_by_path(path, obj, default)` from `notion/utils.py`:
`Except.ok` is the returned `value`, `Except.error` a raised
exception. -/
def get_by_path (path : PathArg) (obj default : PyVal) :
    Except PyExn PyVal :=
  match get_by_path_locals path obj default with
  | (l, Option.none) => Except.ok l.value
  | (_, some e) => Except.error e

/-- Characters that never occur in a hexadecimal identifier rendering:
the separators of the URL-stripping chain, the characters of the
markers `urn:`/`uuid:`/`&p=`/`0x`, braces, signs, underscore, and the
first character of `BASE_URL`. -/
def badChars : PyStr :=
  ['#', '/', '?', '-', '&', 'u', 'r', 'n', ':', 'p', '=', 'h', '+',
    'x', 'X', '_', '.'] ++ BRACES

/- ### Helper lemmas: lists -/

theorem getLastD_irrel {α : Type} {l : List α} (h : l ≠ []) (d d' : α) :
    l.getLastD d = l.getLastD d' := by
  cases l with
  | nil => exact absurd rfl h
  | cons a t => rw [List.getLastD_cons, List.getLastD_cons]

theorem dropWhile_no {α : Type} (p : α → Bool) (l : List α)
    (h : ∀ c ∈ l, p c = false) : l.dropWhile p = l := by
  cases l with
  | nil => rfl
  | cons c r => simp [List.dropWhile_cons, h c (by simp)]

theorem isPrefixOf_head {h c : Char} {t s : PyStr}
    (hp : (h :: t).isPrefixOf (c :: s)) : h = c := by
  rcases List.isPrefixOf_iff_prefix.mp hp with ⟨u, hu⟩
  rw [List.cons_append] at hu
  injection hu

/- ### Helper lemmas: single-character split -/

theorem pySplitChar_ne_nil (sep : Char) (s : PyStr) :
    pySplitChar sep s ≠ [] := by
  cases s with
  | nil => simp [pySplitChar]
  | cons c rest =>
    simp only [pySplitChar]
    split
    · simp
    · split <;> simp

theorem pySplitChar_not_mem {sep : Char} {s : PyStr} (h : sep ∉ s) :
    pySplitChar sep s = [s] := by
  induction s with
  | nil => rfl
  | cons c rest ih =>
    have hc : ¬ c = sep := by
      rintro rfl
      exact h (by simp)
    have hrest : sep ∉ rest := fun hm => h (by simp [hm])
    simp [pySplitChar, hc, ih hrest]

theorem pySplitChar_cons_self (sep : Char) (rest : PyStr) :
    pySplitChar sep (sep :: rest) = [] :: pySplitChar sep rest := by
  simp [pySplitChar]

theorem pySplitChar_cons_ne {sep c : Char} (hc : ¬ c = sep) (rest : PyStr) :
    pySplitChar sep (c :: rest) =
      match pySplitChar sep rest with
      | [] => [[c]]
      | g :: gs => (c :: g) :: gs := by
  simp [pySplitChar, hc]

theorem pySplitChar_length_ge_two {sep : Char} {s : PyStr} (h : sep ∈ s) :
    2 ≤ (pySplitChar sep s).length := by
  induction s with
  | nil => simp at h
  | cons c rest ih =>
    by_cases hc : c = sep
    · subst hc
      rw [pySplitChar_cons_self, List.length_cons]
      have h1 : 0 < (pySplitChar c rest).length :=
        List.length_pos.mpr (pySplitChar_ne_nil c rest)
      omega
    · have hm : sep ∈ rest := by
        rcases List.mem_cons.mp h with h' | h'
        · exact absurd h'.symm hc
        · exact h'
      rw [pySplitChar_cons_ne hc]
      have h2 := ih hm
      rcases hsp : pySplitChar sep rest with _ | ⟨g, gs⟩
      · exact absurd hsp (pySplitChar_ne_nil sep rest)
      · rw [hsp] at h2
        simp only [List.length_cons] at h2 ⊢
        omega

theorem pySplitChar_getLastD_append (sep : Char) (a b : PyStr) :
    (pySplitChar sep (a ++ sep :: b)).getLastD [] =
      (pySplitChar sep b).getLastD [] := by
  induction a with
  | nil =>
    rw [List.nil_append, pySplitChar_cons_self, List.getLastD_cons]
  | cons x a' ih =>
    by_cases hx : x = sep
    · subst hx
      rw [List.cons_append, pySplitChar_cons_self, List.getLastD_cons]
      exact ih
    · rw [List.cons_append, pySplitChar_cons_ne hx]
      have hmem : sep ∈ a' ++ sep :: b := by simp
      have hlen := pySplitChar_length_ge_two hmem
      rcases hsp : pySplitChar sep (a' ++ sep :: b) with _ | ⟨g, gs⟩
      · exact absurd hsp (pySplitChar_ne_nil _ _)
      · rw [hsp] at hlen ih
        have hgs : gs ≠ [] := by
          intro hnil
          rw [hnil] at hlen
          simp at hlen
        calc ((x :: g) :: gs).getLastD [] = gs.getLastD (x :: g) := by
              rw [List.getLastD_cons]
          _ = gs.getLastD g := getLastD_irrel hgs _ _
          _ = (g :: gs).getLastD [] := by rw [List.getLastD_cons]
          _ = (pySplitChar sep b).getLastD [] := ih

theorem afterLastChar_not_mem {sep : Char} {s : PyStr} (h : sep ∉ s) :
    afterLastChar sep s = s := by
  simp [afterLastChar, pySplitChar_not_mem h]

theorem afterLastChar_append (sep : Char) (a b : PyStr) :
    afterLastChar sep (a ++ sep :: b) = afterLastChar sep b :=
  pySplitChar_getLastD_append sep a b

theorem beforeFirstChar_not_mem {sep : Char} {s : PyStr} (h : sep ∉ s) :
    beforeFirstChar sep s = s := by
  simp [beforeFirstChar, pySplitChar_not_mem h]

/- ### Helper lemmas: multi-character split -/

theorem pySplitAux_fuel {sep : PyStr} (hsep : sep ≠ []) :
    ∀ f g s, s.length ≤ f → s.length ≤ g →
      pySplitAux sep f s = pySplitAux sep g s := by
  intro f
  induction f with
  | zero =>
    intro g s hf _
    have hs : s = [] := List.eq_nil_of_length_eq_zero (Nat.le_zero.mp hf)
    subst hs
    cases g <;> rfl
  | succ f ih =>
    intro g s hf hg
    cases s with
    | nil => cases g <;> rfl
    | cons c rest =>
      cases g with
      | zero => simp at hg
      | succ g' =>
        have hlen : 1 ≤ sep.length := List.length_pos.mpr hsep
        have hf' : rest.length + 1 ≤ f + 1 := by simpa using hf
        have hg' : rest.length + 1 ≤ g' + 1 := by simpa using hg
        simp only [pySplitAux]
        by_cases hp : sep.isPrefixOf (c :: rest)
        · simp only [if_pos hp]
          have hd : ((c :: rest).drop sep.length).length ≤ f := by
            rw [List.length_drop, List.length_cons]
            omega
          have hd' : ((c :: rest).drop sep.length).length ≤ g' := by
            rw [List.length_drop, List.length_cons]
            omega
          rw [ih _ _ hd hd']
        · simp only [if_neg hp]
          rw [ih g' rest (by omega) (by omega)]

theorem pySplitStr_cons {sep : PyStr} (hsep : sep ≠ []) (c : Char)
    (rest : PyStr) :
    pySplitStr sep (c :: rest) =
      if sep.isPrefixOf (c :: rest) then
        [] :: pySplitStr sep ((c :: rest).drop sep.length)
      else
        match pySplitStr sep rest with
        | [] => [[c]]
        | g :: gs => (c :: g) :: gs := by
  have hlen : 1 ≤ sep.length := List.length_pos.mpr hsep
  show pySplitAux sep (rest.length + 1) (c :: rest) = _
  simp only [pySplitAux]
  by_cases hp : sep.isPrefixOf (c :: rest)
  · simp only [if_pos hp]
    have hd : ((c :: rest).drop sep.length).length ≤ rest.length := by
      rw [List.length_drop, List.length_cons]
      omega
    rw [pySplitAux_fuel hsep rest.length ((c :: rest).drop sep.length).length
      ((c :: rest).drop sep.length) hd (le_refl _)]
    rfl
  · simp only [if_neg hp]
    rfl

theorem pySplitStr_nil (sep : PyStr) : pySplitStr sep [] = [[]] := rfl

theorem pySplitStr_ne_nil {sep : PyStr} (hsep : sep ≠ []) (s : PyStr) :
    pySplitStr sep s ≠ [] := by
  cases s with
  | nil => simp [pySplitStr_nil]
  | cons c rest =>
    rw [pySplitStr_cons hsep]
    split
    · simp
    · split <;> simp

theorem pySplitStr_cons_match {sep : PyStr} (hsep : sep ≠ [])
    {c : Char} {rest : PyStr} (hp : ¬ sep.isPrefixOf (c :: rest)) :
    pySplitStr sep (c :: rest) =
      match pySplitStr sep rest with
      | [] => [[c]]
      | g :: gs => (c :: g) :: gs := by
  rw [pySplitStr_cons hsep, if_neg hp]

theorem pySplitStr_not_head {h : Char} {t s : PyStr} (hh : h ∉ s) :
    pySplitStr (h :: t) s = [s] := by
  induction s with
  | nil => rfl
  | cons c rest ih =>
    have hp : ¬ (h :: t).isPrefixOf (c :: rest) := by
      intro hp
      exact hh (isPrefixOf_head hp ▸ List.mem_cons_self c rest)
    rw [pySplitStr_cons_match (by simp) hp,
      ih (fun hm => hh (List.mem_cons_of_mem c hm))]

theorem pySplitStr_length_ge_two {h : Char} {t a b : PyStr} (ha : h ∉ a) :
    2 ≤ (pySplitStr (h :: t) (a ++ (h :: t) ++ b)).length := by
  induction a with
  | nil =>
    rw [List.nil_append]
    have hp : (h :: t).isPrefixOf ((h :: t) ++ b) :=
      List.isPrefixOf_iff_prefix.mpr (List.prefix_append _ _)
    rw [show (h :: t) ++ b = h :: (t ++ b) from rfl,
      pySplitStr_cons (by simp), if_pos (by simp [hp]),
      List.length_cons]
    have h1 : 0 < (pySplitStr (h :: t)
        ((h :: (t ++ b)).drop (h :: t).length)).length :=
      List.length_pos.mpr (pySplitStr_ne_nil (by simp) _)
    omega
  | cons x a' ih =>
    have hx : x ≠ h := by
      intro hxe
      exact ha (hxe ▸ List.mem_cons_self x a')
    have hp : ¬ (h :: t).isPrefixOf (x :: (a' ++ (h :: t) ++ b)) := by
      intro hp
      exact hx (isPrefixOf_head hp).symm
    have ha' : h ∉ a' := fun hm => ha (List.mem_cons_of_mem x hm)
    have h2 := ih ha'
    rw [show (x :: a') ++ (h :: t) ++ b = x :: (a' ++ (h :: t) ++ b) from
      by simp, pySplitStr_cons_match (by simp) hp]
    rcases hsp : pySplitStr (h :: t) (a' ++ (h :: t) ++ b) with _ | ⟨g, gs⟩
    · exact absurd hsp (pySplitStr_ne_nil (by simp) _)
    · rw [hsp] at h2
      simp only [List.length_cons] at h2 ⊢
      omega

theorem pySplitStr_getLastD_append {h : Char} {t : PyStr} (a b : PyStr)
    (ha : h ∉ a) :
    (pySplitStr (h :: t) (a ++ (h :: t) ++ b)).getLastD [] =
      (pySplitStr (h :: t) b).getLastD [] := by
  induction a with
  | nil =>
    rw [List.nil_append]
    have hp : (h :: t).isPrefixOf ((h :: t) ++ b) :=
      List.isPrefixOf_iff_prefix.mpr (List.prefix_append _ _)
    rw [show (h :: t) ++ b = h :: (t ++ b) from rfl,
      pySplitStr_cons (by simp), if_pos (by simp [hp])]
    rw [show ((h :: (t ++ b)).drop (h :: t).length) = b from by
      exact List.drop_left (h :: t) b]
    rw [List.getLastD_cons]
  | cons x a' ih =>
    have hx : x ≠ h := by
      intro hxe
      exact ha (hxe ▸ List.mem_cons_self x a')
    have hp : ¬ (h :: t).isPrefixOf (x :: (a' ++ (h :: t) ++ b)) := by
      intro hp
      exact hx (isPrefixOf_head hp).symm
    have ha' : h ∉ a' := fun hm => ha (List.mem_cons_of_mem x hm)
    have hlen := pySplitStr_length_ge_two (t := t) (b := b) ha'
    have ihh := ih ha'
    rw [show (x :: a') ++ (h :: t) ++ b = x :: (a' ++ (h :: t) ++ b) from
      by simp, pySplitStr_cons_match (by simp) hp]
    rcases hsp : pySplitStr (h :: t) (a' ++ (h :: t) ++ b) with _ | ⟨g, gs⟩
    · exact absurd hsp (pySplitStr_ne_nil (by simp) _)
    · rw [hsp] at hlen ihh
      have hgs : gs ≠ [] := by
        intro hnil
        rw [hnil] at hlen
        simp at hlen
      calc ((x :: g) :: gs).getLastD [] = gs.getLastD (x :: g) := by
            rw [List.getLastD_cons]
        _ = gs.getLastD g := getLastD_irrel hgs _ _
        _ = (g :: gs).getLastD [] := by rw [List.getLastD_cons]
        _ = (pySplitStr (h :: t) b).getLastD [] := ihh

theorem afterLastStr_not_head {h : Char} {t s : PyStr} (hh : h ∉ s) :
    afterLastStr (h :: t) s = s := by
  simp [afterLastStr, pySplitStr_not_head hh]

theorem afterLastStr_append {h : Char} {t : PyStr} (a b : PyStr)
    (ha : h ∉ a) :
    afterLastStr (h :: t) (a ++ (h :: t) ++ b) = afterLastStr (h :: t) b :=
  pySplitStr_getLastD_append a b ha

/- ### Helper lemmas: replace -/

theorem pyReplaceAux_fuel {old : PyStr} (hold : old ≠ []) (new : PyStr) :
    ∀ f g s, s.length ≤ f → s.length ≤ g →
      pyReplaceAux old new f s = pyReplaceAux old new g s := by
  intro f
  induction f with
  | zero =>
    intro g s hf _
    have hs : s = [] := List.eq_nil_of_length_eq_zero (Nat.le_zero.mp hf)
    subst hs
    cases g <;> rfl
  | succ f ih =>
    intro g s hf hg
    cases s with
    | nil => cases g <;> rfl
    | cons c rest =>
      cases g with
      | zero => simp at hg
      | succ g' =>
        have hlen : 1 ≤ old.length := List.length_pos.mpr hold
        have hf' : rest.length + 1 ≤ f + 1 := by simpa using hf
        have hg' : rest.length + 1 ≤ g' + 1 := by simpa using hg
        simp only [pyReplaceAux]
        by_cases hp : old.isPrefixOf (c :: rest)
        · simp only [if_pos hp]
          have hd : ((c :: rest).drop old.length).length ≤ f := by
            rw [List.length_drop, List.length_cons]
            omega
          have hd' : ((c :: rest).drop old.length).length ≤ g' := by
            rw [List.length_drop, List.length_cons]
            omega
          rw [ih _ _ hd hd']
        · simp only [if_neg hp]
          rw [ih g' rest (by omega) (by omega)]

theorem pyReplace_cons {old : PyStr} (hold : old ≠ []) (new : PyStr)
    (c : Char) (rest : PyStr) :
    pyReplace old new (c :: rest) =
      if old.isPrefixOf (c :: rest) then
        new ++ pyReplace old new ((c :: rest).drop old.length)
      else c :: pyReplace old new rest := by
  have hlen : 1 ≤ old.length := List.length_pos.mpr hold
  show pyReplaceAux old new (rest.length + 1) (c :: rest) = _
  simp only [pyReplaceAux]
  by_cases hp : old.isPrefixOf (c :: rest)
  · simp only [if_pos hp]
    have hd : ((c :: rest).drop old.length).length ≤ rest.length := by
      rw [List.length_drop, List.length_cons]
      omega
    rw [pyReplaceAux_fuel hold new rest.length
      ((c :: rest).drop old.length).length ((c :: rest).drop old.length) hd
      (le_refl _)]
    rfl
  · simp only [if_neg hp]
    rfl

theorem pyReplace_not_head {h : Char} {t s : PyStr} (new : PyStr)
    (hh : h ∉ s) : pyReplace (h :: t) new s = s := by
  induction s with
  | nil => rfl
  | cons c rest ih =>
    have hp : ¬ (h :: t).isPrefixOf (c :: rest) := by
      intro hp
      exact hh (isPrefixOf_head hp ▸ List.mem_cons_self c rest)
    rw [pyReplace_cons (by simp) new, if_neg hp,
      ih (fun hm => hh (List.mem_cons_of_mem c hm))]

theorem pyReplace_char_skip {c : Char} {a : PyStr} (b : PyStr)
    (ha : c ∉ a) :
    pyReplace [c] [] (a ++ c :: b) = a ++ pyReplace [c] [] b := by
  induction a with
  | nil =>
    rw [List.nil_append, pyReplace_cons (by simp) [], if_pos (by
      simp [List.isPrefixOf])]
    simp
  | cons x a' ih =>
    have hx : x ≠ c := by
      intro hxe
      exact ha (hxe ▸ List.mem_cons_self x a')
    have hp : ¬ [c].isPrefixOf (x :: (a' ++ c :: b)) := by
      intro hp
      exact hx (isPrefixOf_head hp).symm
    rw [List.cons_append, pyReplace_cons (by simp) [], if_neg hp,
      ih (fun hm => ha (List.mem_cons_of_mem x hm)), List.cons_append]

/- ### Helper lemmas: strip and trim -/

theorem pyStripSet_no {chars s : PyStr} (h : ∀ c ∈ s, c ∉ chars) :
    pyStripSet chars s = s := by
  unfold pyStripSet
  rw [dropWhile_no (fun c => c ∈ chars) s (fun c hc => by simp [h c hc])]
  rw [dropWhile_no (fun c => c ∈ chars) s.reverse
    (fun c hc => by simp [h c (List.mem_reverse.mp hc)])]
  exact List.reverse_reverse s

theorem pyTrimWS_no {s : PyStr} (h : ∀ c ∈ s, c.isWhitespace = false) :
    pyTrimWS s = s := by
  unfold pyTrimWS
  rw [dropWhile_no Char.isWhitespace s h]
  rw [dropWhile_no Char.isWhitespace s.reverse
    (fun c hc => h c (List.mem_reverse.mp hc))]
  exact List.reverse_reverse s

/- ### Helper lemmas: hexadecimal digits -/

theorem hexChar_facts :
    ∀ d, d < 16 → hexChar d ∉ badChars ∧ (hexChar d).isWhitespace = false ∧
      hexVal (hexChar d) = some d := by decide

theorem toHexPad_length (k n : Nat) : (toHexPad k n).length = k := by
  induction k generalizing n with
  | zero => rfl
  | succ k ih => simp [toHexPad, ih]

theorem toHexPad_mem {k n : Nat} {c : Char} (h : c ∈ toHexPad k n) :
    ∃ d, d < 16 ∧ c = hexChar d := by
  induction k generalizing n with
  | zero => simp [toHexPad] at h
  | succ k ih =>
    simp only [toHexPad, List.mem_append, List.mem_singleton] at h
    rcases h with h | h
    · exact ih h
    · exact ⟨n % 16, Nat.mod_lt _ (by norm_num), h⟩

theorem toHexPad_safe {k n : Nat} :
    ∀ c ∈ toHexPad k n, c ∉ badChars ∧ c.isWhitespace = false := by
  intro c hc
  rcases toHexPad_mem hc with ⟨d, hd, rfl⟩
  exact ⟨(hexChar_facts d hd).1, (hexChar_facts d hd).2.1⟩

theorem not_mem_of_safe {u : PyStr} (hu : ∀ c ∈ u, c ∉ badChars) {c : Char}
    (hc : c ∈ badChars) : c ∉ u := fun hm => (hu c hm) hc

/- ### Helper lemmas: digit scanning -/

theorem digitsGo_all_digits {base : Nat} {dv : Char → Option Nat} :
    ∀ (ds : PyStr), (∀ c ∈ ds, (dv c).isSome) → ∀ acc : Nat,
      digitsGo base dv acc true ds =
        some (ds.foldl (fun a c => a * base + (dv c).getD 0) acc) := by
  intro ds
  induction ds with
  | nil =>
    intro _ acc
    rfl
  | cons c rest ih =>
    intro h acc
    have hc := h c (by simp)
    rcases hv : dv c with _ | d
    · rw [hv] at hc
      simp at hc
    · simp only [digitsGo, hv]
      rw [ih (fun x hx => h x (by simp [hx])) _]
      simp [hv]

theorem digitsGo_start {base : Nat} {dv : Char → Option Nat} {ds : PyStr}
    (hne : ds ≠ []) (h : ∀ c ∈ ds, (dv c).isSome) (acc : Nat) :
    digitsGo base dv acc false ds =
      some (ds.foldl (fun a c => a * base + (dv c).getD 0) acc) := by
  cases ds with
  | nil => exact absurd rfl hne
  | cons c rest =>
    have hc := h c (by simp)
    rcases hv : dv c with _ | d
    · rw [hv] at hc
      simp at hc
    · simp only [digitsGo, hv]
      rw [digitsGo_all_digits rest (fun x hx => h x (by simp [hx])) _]
      simp [hv]

theorem foldl_toHexPad {k n : Nat} (hn : n < 16 ^ k) (acc : Nat) :
    (toHexPad k n).foldl (fun a c => a * 16 + (hexVal c).getD 0) acc =
      acc * 16 ^ k + n := by
  induction k generalizing n acc with
  | zero =>
    have : n = 0 := by omega
    subst this
    simp [toHexPad]
  | succ k ih =>
    simp only [toHexPad, List.foldl_append, List.foldl_cons, List.foldl_nil]
    have h16 : hexVal (hexChar (n % 16)) = some (n % 16) :=
      (hexChar_facts _ (Nat.mod_lt _ (by norm_num))).2.2
    have hdiv : n / 16 < 16 ^ k := by
      rw [Nat.div_lt_iff_lt_mul (by norm_num)]
      calc n < 16 ^ (k + 1) := hn
        _ = 16 ^ k * 16 := pow_succ 16 k
    rw [ih hdiv acc, h16]
    calc (acc * 16 ^ k + n / 16) * 16 + (some (n % 16)).getD 0
        = acc * (16 ^ k * 16) + (16 * (n / 16) + n % 16) := by
          simp [Option.getD]
          ring
      _ = acc * 16 ^ (k + 1) + n := by rw [← pow_succ, Nat.div_add_mod]

/- ### Helper lemmas: hex-string to integer -/

theorem dropHexMark_no {s : PyStr} (h : ∀ c ∈ s, ¬ (c = 'x' ∨ c = 'X')) :
    dropHexMark s = s := by
  cases s with
  | nil => rfl
  | cons c1 rest =>
    cases rest with
    | nil => rfl
    | cons c2 r =>
      have hcond : ¬ (c1 = '0' ∧ (c2 = 'x' ∨ c2 = 'X')) := by
        rintro ⟨_, hx⟩
        exact h c2 (by simp) hx
      simp [dropHexMark, hcond]

theorem pyIntHexBase16_toHexPad {n : Nat} (hn : n < 2 ^ 128) :
    pyIntHexBase16 (toHexPad 32 n) = some (Int.ofNat n) := by
  have hsafe := @toHexPad_safe 32 n
  have hws : pyTrimWS (toHexPad 32 n) = toHexPad 32 n :=
    pyTrimWS_no (fun c hc => (hsafe c hc).2)
  have hne : toHexPad 32 n ≠ [] := by
    intro hnil
    have hl := toHexPad_length 32 n
    rw [hnil] at hl
    simp at hl
  have hmark : dropHexMark (toHexPad 32 n) = toHexPad 32 n := by
    refine dropHexMark_no (fun c hc hxx => ?_)
    rcases hxx with hx | hx
    · exact (hsafe c hc).1 (hx ▸ show ('x' : Char) ∈ badChars from by decide)
    · exact (hsafe c hc).1 (hx ▸ show ('X' : Char) ∈ badChars from by decide)
  have hdigits : ∀ c ∈ toHexPad 32 n, (hexVal c).isSome := by
    intro c hc
    rcases toHexPad_mem hc with ⟨d, hd, rfl⟩
    simp [(hexChar_facts d hd).2.2]
  have hnosign : ∀ {c : Char}, c ∈ toHexPad 32 n → ¬ (c = '+' ∨ c = '-') := by
    intro c hc hpm
    rcases hpm with hx | hx
    · exact (hsafe c hc).1 (hx ▸ show ('+' : Char) ∈ badChars from by decide)
    · exact (hsafe c hc).1 (hx ▸ show ('-' : Char) ∈ badChars from by decide)
  have hval : digitsGo 16 hexVal 0 false (toHexPad 32 n) = some n := by
    rw [digitsGo_start hne hdigits 0]
    have h1632 : (16 : Nat) ^ 32 = 2 ^ 128 := by norm_num
    rw [foldl_toHexPad (by rw [h1632]; exact hn) 0]
    simp
  simp only [pyIntHexBase16, hws]
  split
  next r heq =>
    exact absurd (Or.inl rfl) (hnosign (by rw [heq]; simp))
  next r heq =>
    exact absurd (Or.inr rfl) (hnosign (by rw [heq]; simp))
  next h1 h2 =>
    rw [hmark, hval]
    rfl

/- ### Helper lemmas: the canonical dashed rendering -/

theorem uuidStr_mem {n : Nat} {c : Char} (hc : c ∈ uuidStr n) :
    c = '-' ∨ ∃ d, d < 16 ∧ c = hexChar d := by
  have hpad : ∀ {x : Char}, x ∈ toHexPad 32 n →
      ∃ d, d < 16 ∧ x = hexChar d := fun hm => toHexPad_mem hm
  simp only [uuidStr] at hc
  rcases List.mem_append.mp hc with h | h
  · exact Or.inr (hpad (List.take_subset _ _ h))
  rcases List.mem_cons.mp h with h | h
  · exact Or.inl h
  rcases List.mem_append.mp h with h | h
  · exact Or.inr (hpad (List.drop_subset _ _ (List.take_subset _ _ h)))
  rcases List.mem_cons.mp h with h | h
  · exact Or.inl h
  rcases List.mem_append.mp h with h | h
  · exact Or.inr (hpad (List.drop_subset _ _ (List.take_subset _ _ h)))
  rcases List.mem_cons.mp h with h | h
  · exact Or.inl h
  rcases List.mem_append.mp h with h | h
  · exact Or.inr (hpad (List.drop_subset _ _ (List.take_subset _ _ h)))
  rcases List.mem_cons.mp h with h | h
  · exact Or.inl h
  · exact Or.inr (hpad (List.drop_subset _ _ h))

theorem uuidStr_length (n : Nat) : (uuidStr n).length = 36 := by
  simp only [uuidStr, List.length_append, List.length_cons,
    List.length_take, List.length_drop, toHexPad_length]
  omega

theorem pyReplace_dash_uuidStr (n : Nat) :
    pyReplace ['-'] [] (uuidStr n) = toHexPad 32 n := by
  have hsafe := @toHexPad_safe 32 n
  have hdash : ∀ m k : Nat, '-' ∉ ((toHexPad 32 n).drop m).take k := by
    intro m k hm
    exact (hsafe _ (List.drop_subset _ _ (List.take_subset _ _ hm))).1
      (by decide)
  have hdash0 : '-' ∉ (toHexPad 32 n).take 8 := fun hm =>
    (hsafe _ (List.take_subset _ _ hm)).1 (by decide)
  have hdash5 : '-' ∉ (toHexPad 32 n).drop 20 := fun hm =>
    (hsafe _ (List.drop_subset _ _ hm)).1 (by decide)
  simp only [uuidStr]
  rw [pyReplace_char_skip _ hdash0, pyReplace_char_skip _ (hdash 8 4),
    pyReplace_char_skip _ (hdash 12 4), pyReplace_char_skip _ (hdash 16 4),
    pyReplace_not_head [] hdash5]
  have e4 : ((toHexPad 32 n).drop 16).take 4 ++ (toHexPad 32 n).drop 20 =
      (toHexPad 32 n).drop 16 := by
    rw [show (20 : Nat) = 16 + 4 from rfl, ← List.drop_drop,
      List.take_append_drop]
  have e3 : ((toHexPad 32 n).drop 12).take 4 ++ (toHexPad 32 n).drop 16 =
      (toHexPad 32 n).drop 12 := by
    rw [show (16 : Nat) = 12 + 4 from rfl, ← List.drop_drop,
      List.take_append_drop]
  have e2 : ((toHexPad 32 n).drop 8).take 4 ++ (toHexPad 32 n).drop 12 =
      (toHexPad 32 n).drop 8 := by
    rw [show (12 : Nat) = 8 + 4 from rfl, ← List.drop_drop,
      List.take_append_drop]
  rw [e4, e3, e2, List.take_append_drop]

/- ### Helper lemmas: pyUUID -/

theorem pyUUID_of_clean {s : PyStr} {n : Nat} (hn : n < 2 ^ 128)
    (h1 : pyReplace (toL "urn:") [] s = s)
    (h2 : pyReplace (toL "uuid:") [] s = s)
    (h3 : pyStripSet BRACES s = s)
    (h4 : pyReplace ['-'] [] s = toHexPad 32 n) :
    pyUUID s = some n := by
  have h2128 : (2 : Nat) ^ 128 = 340282366920938463463374607431768211456 :=
    by norm_num
  have hrange : 0 ≤ Int.ofNat n ∧ Int.ofNat n < INT128 := by
    refine ⟨Int.ofNat_nonneg n, ?_⟩
    unfold INT128
    have hn' : n < 340282366920938463463374607431768211456 := h2128 ▸ hn
    rw [Int.ofNat_eq_natCast]
    exact_mod_cast hn'
  simp only [pyUUID, h1, h2, h3, h4, toHexPad_length,
    pyIntHexBase16_toHexPad hn]
  simp only [if_true]
  rw [if_pos hrange]
  simp

theorem pyUUID_toHexPad {n : Nat} (hn : n < 2 ^ 128) :
    pyUUID (toHexPad 32 n) = some n := by
  have hsafe := @toHexPad_safe 32 n
  have hnotu : 'u' ∉ toHexPad 32 n :=
    not_mem_of_safe (fun c hc => (hsafe c hc).1) (by decide)
  have hnotd : '-' ∉ toHexPad 32 n :=
    not_mem_of_safe (fun c hc => (hsafe c hc).1) (by decide)
  refine pyUUID_of_clean hn ?_ ?_ ?_ ?_
  · exact pyReplace_not_head [] hnotu
  · exact pyReplace_not_head [] hnotu
  · refine pyStripSet_no (fun c hc hbr => ?_)
    exact (hsafe c hc).1 (List.mem_append_right _ hbr)
  · exact pyReplace_not_head [] hnotd

theorem pyUUID_uuidStr {n : Nat} (hn : n < 2 ^ 128) :
    pyUUID (uuidStr n) = some n := by
  have hnotu : 'u' ∉ uuidStr n := by
    intro hm
    rcases uuidStr_mem hm with h | ⟨d, hd, h⟩
    · exact absurd h (by decide)
    · exact (hexChar_facts d hd).1
        (h ▸ show ('u' : Char) ∈ badChars from by decide)
  have hbr : ∀ c ∈ uuidStr n, c ∉ BRACES := by
    intro c hc hmem
    rcases uuidStr_mem hc with h | ⟨d, hd, h⟩
    · rw [h] at hmem
      exact absurd hmem (by decide)
    · exact (hexChar_facts d hd).1
        (h ▸ List.mem_append_right _ hmem)
  refine pyUUID_of_clean hn ?_ ?_ ?_ ?_
  · exact pyReplace_not_head [] hnotu
  · exact pyReplace_not_head [] hnotu
  · exact pyStripSet_no hbr
  · exact pyReplace_dash_uuidStr n

/- ### Helper lemmas: the URL-stripping chain on the supported shapes -/

theorem not_mem_append {c : Char} {a b : PyStr} (ha : c ∉ a) (hb : c ∉ b) :
    c ∉ a ++ b := by
  intro hm
  rcases List.mem_append.mp hm with h | h
  · exact ha h
  · exact hb h

theorem not_mem_cons {c x : Char} {b : PyStr} (hx : ¬ c = x) (hb : c ∉ b) :
    c ∉ x :: b := by
  intro hm
  rcases List.mem_cons.mp hm with h | h
  · exact hx h
  · exact hb h

theorem chain_plain {u : PyStr} (hu : ∀ c ∈ u, c ∉ badChars) :
    urlTransformChain (BASE_URL ++ ('/' :: u)) = u := by
  have hU : ∀ {c : Char}, c ∈ badChars → c ∉ u := fun hc =>
    not_mem_of_safe hu hc
  unfold urlTransformChain
  rw [afterLastChar_not_mem (not_mem_append (by decide)
    (not_mem_cons (by decide) (hU (by decide))))]
  rw [afterLastChar_append '/' BASE_URL u]
  rw [afterLastChar_not_mem (hU (by decide))]
  rw [show AMP_P = '&' :: toL "p=" from rfl]
  rw [afterLastStr_not_head (hU (by decide))]
  rw [beforeFirstChar_not_mem (hU (by decide))]
  rw [afterLastChar_not_mem (hU (by decide))]

theorem chain_fragment {u : PyStr} (hu : ∀ c ∈ u, c ∉ badChars) :
    urlTransformChain
      (BASE_URL ++ ('/' :: (toL "Slug-abc" ++ ('#' :: u)))) = u := by
  have hU : ∀ {c : Char}, c ∈ badChars → c ∉ u := fun hc =>
    not_mem_of_safe hu hc
  unfold urlTransformChain
  rw [show BASE_URL ++ ('/' :: (toL "Slug-abc" ++ ('#' :: u))) =
    (BASE_URL ++ ('/' :: toL "Slug-abc")) ++ '#' :: u from by simp]
  rw [afterLastChar_append]
  rw [afterLastChar_not_mem (hU (by decide))]
  rw [afterLastChar_not_mem (hU (by decide))]
  rw [show AMP_P = '&' :: toL "p=" from rfl]
  rw [afterLastStr_not_head (hU (by decide))]
  rw [beforeFirstChar_not_mem (hU (by decide))]
  rw [afterLastChar_not_mem (hU (by decide))]

theorem chain_legacy {u : PyStr} (hu : ∀ c ∈ u, c ∉ badChars) :
    urlTransformChain
      (BASE_URL ++ ('/' :: (toL "Page?foo=1" ++ (AMP_P ++ u)))) = u := by
  have hU : ∀ {c : Char}, c ∈ badChars → c ∉ u := fun hc =>
    not_mem_of_safe hu hc
  unfold urlTransformChain
  rw [afterLastChar_not_mem (not_mem_append (by decide)
    (not_mem_cons (by decide) (not_mem_append (by decide)
      (not_mem_append (by decide) (hU (by decide))))))]
  rw [afterLastChar_append]
  rw [afterLastChar_not_mem (not_mem_append (by decide)
    (not_mem_append (by decide) (hU (by decide))))]
  rw [show AMP_P = '&' :: toL "p=" from rfl]
  rw [show toL "Page?foo=1" ++ (('&' :: toL "p=") ++ u) =
    (toL "Page?foo=1" ++ ('&' :: toL "p=")) ++ u from by simp]
  rw [afterLastStr_append (toL "Page?foo=1") u (by decide)]
  rw [afterLastStr_not_head (hU (by decide))]
  rw [beforeFirstChar_not_mem (hU (by decide))]
  rw [afterLastChar_not_mem (hU (by decide))]

theorem chain_slug {u : PyStr} (hu : ∀ c ∈ u, c ∉ badChars) :
    urlTransformChain (BASE_URL ++ ('/' :: (toL "My-Page-" ++ u))) = u := by
  have hU : ∀ {c : Char}, c ∈ badChars → c ∉ u := fun hc =>
    not_mem_of_safe hu hc
  unfold urlTransformChain
  rw [afterLastChar_not_mem (not_mem_append (by decide)
    (not_mem_cons (by decide) (not_mem_append (by decide)
      (hU (by decide)))))]
  rw [afterLastChar_append]
  rw [afterLastChar_not_mem (not_mem_append (by decide) (hU (by decide)))]
  rw [show AMP_P = '&' :: toL "p=" from rfl]
  rw [afterLastStr_not_head (not_mem_append (by decide) (hU (by decide)))]
  rw [beforeFirstChar_not_mem (not_mem_append (by decide) (hU (by decide)))]
  rw [show toL "My-Page-" ++ u = toL "My" ++ '-' :: (toL "Page" ++ '-' :: u)
    from rfl]
  rw [afterLastChar_append, afterLastChar_append]
  rw [afterLastChar_not_mem (hU (by decide))]

/- ### Helper lemmas: get_by_path -/

theorem loopGo_obj : ∀ (ks : List PyStr) (l : Locals),
    ((loopGo ks l).1).obj = l.obj := by
  intro ks
  induction ks with
  | nil =>
    intro l
    rfl
  | cons k ks ih =>
    intro l
    simp only [loopGo]
    cases hS : stepKey l.value k with
    | ok v => exact ih ⟨l.obj, v⟩
    | error e => rfl

theorem get_by_path_eq (p : PathArg) (obj d : PyVal) :
    get_by_path p obj d =
      (match loopGo (segsOf p) ⟨obj, obj⟩ with
      | (l, Option.none) => Except.ok l.value
      | (_, some PyExn.valueError) => Except.error PyExn.valueError
      | (_, some _) => Except.ok d) := by
  unfold get_by_path get_by_path_locals
  rcases loopGo (segsOf p) ⟨obj, obj⟩ with ⟨l, _ | e⟩
  · rfl
  · cases e <;> rfl

/- ### Claim theorems -/

/-- Claim C1, counterexample: `get_by_path` does raise.  On the path
`"a"` over the list target `[1]`, the segment is fed to `int(...)`,
whose `ValueError` is not among the caught exception kinds, so the call
raises instead of returning the default `None`. -/
theorem claim_C1_counterexample :
    get_by_path (.str (toL "a")) (PyVal.list [PyVal.int 1]) PyVal.none =
      Except.error PyExn.valueError := rfl

/-- Claim C1, amended: (1) the only exception `get_by_path` can raise
is `ValueError`; (2) when the traversal stops with one of the caught
kinds — `KeyError` (key absent), `TypeError` (node not indexable),
`IndexError` (index out of range) — the caller-supplied default is
returned; (3) when the traversal stops with `ValueError` the function
raises it; and (4) a sequence node whose segment does not parse as an
integer does fail its step with exactly that uncaught `ValueError`. -/
theorem claim_C1_amended (p : PathArg) (obj d : PyVal) :
    (∀ e, get_by_path p obj d = Except.error e → e = PyExn.valueError) ∧
    (∀ l e, loopGo (segsOf p) ⟨obj, obj⟩ = (l, some e) →
      e = PyExn.keyError ∨ e = PyExn.typeError ∨ e = PyExn.indexError →
      get_by_path p obj d = Except.ok d) ∧
    (∀ l, loopGo (segsOf p) ⟨obj, obj⟩ = (l, some PyExn.valueError) →
      get_by_path p obj d = Except.error PyExn.valueError) ∧
    (∀ (xs : List PyVal) (s : PyStr), pyIntDec s = Option.none →
      stepKey (PyVal.list xs) s = Except.error PyExn.valueError) := by
  refine ⟨?_, ?_, ?_, ?_⟩
  · intro e h
    rw [get_by_path_eq] at h
    rcases hL : loopGo (segsOf p) ⟨obj, obj⟩ with ⟨l, oe⟩
    rw [hL] at h
    cases oe with
    | none => exact absurd h (by simp)
    | some e' =>
      cases e' with
      | valueError =>
        injection h with h1
        exact h1.symm
      | keyError => exact absurd h (by simp)
      | typeError => exact absurd h (by simp)
      | indexError => exact absurd h (by simp)
  · intro l e hL he
    rw [get_by_path_eq, hL]
    rcases he with rfl | rfl | rfl <;> rfl
  · intro l hL
    rw [get_by_path_eq, hL]
  · intro xs s hs
    simp [stepKey, hs]

/-- Claim C1, witness for the amended theorem: its raising clauses at a
sequence target with a non-parsing segment, and its defaulting clause
at a mapping missing the requested key. -/
theorem claim_C1_witness :
    (get_by_path (.str (toL "q")) (PyVal.list [PyVal.int 9]) PyVal.none =
      Except.error PyExn.valueError ∧
      PyExn.valueError = PyExn.valueError ∧
      stepKey (PyVal.list [PyVal.int 9]) (toL "q") =
        Except.error PyExn.valueError) ∧
    get_by_path (.str (toL "missing")) (PyVal.dict []) (PyVal.int 4) =
      Except.ok (PyVal.int 4) := by
  refine ⟨⟨rfl, ?_, ?_⟩, ?_⟩
  · exact (claim_C1_amended (.str (toL "q")) (PyVal.list [PyVal.int 9])
      PyVal.none).1 PyExn.valueError rfl
  · exact (claim_C1_amended (.str (toL "q")) (PyVal.list [PyVal.int 9])
      PyVal.none).2.2.2 [PyVal.int 9] (toL "q") rfl
  · exact (claim_C1_amended (.str (toL "missing")) (PyVal.dict [])
      (PyVal.int 4)).2.1 ⟨PyVal.dict [], PyVal.dict []⟩ PyExn.keyError rfl
      (Or.inl rfl)

/-- Claim C2, counterexample: the segment `"-1"` does not parse as a
non-negative integer, yet traversal does not fail: Python indexing
accepts the negative index and returns the last element `30`, not the
default `0`. -/
theorem claim_C2_counterexample :
    get_by_path (.str (toL "items.-1"))
      (PyVal.dict [(toL "items",
        PyVal.list [PyVal.int 10, PyVal.int 20, PyVal.int 30])])
      (PyVal.int 0) = Except.ok (PyVal.int 30) := rfl

/-- Claim C2, amended: on a sequence node the segment is used as a
positional index whenever it parses as an integer — negative indices
count from the end, Python style; a segment that does not parse raises
an uncaught `ValueError` instead of producing the default, and an
out-of-range parsed index produces the default. -/
theorem claim_C2_amended (s : PyStr) (xs : List PyVal) (d : PyVal) :
    get_by_path (.list [s]) (PyVal.list xs) d =
      (match pyIntDec s with
      | Option.none => Except.error PyExn.valueError
      | some i =>
        match pyListGet xs i with
        | some v => Except.ok v
        | Option.none => Except.ok d) := by
  rcases hI : pyIntDec s with _ | i
  · simp [get_by_path_eq, loopGo, stepKey, segsOf, hI]
  · rcases hG : pyListGet xs i with _ | v
    · simp [get_by_path_eq, loopGo, stepKey, segsOf, hI, hG]
    · simp [get_by_path_eq, loopGo, stepKey, segsOf, hI, hG]

/-- Claim C3, counterexample: a hyphenated-slug URL that ends in the
canonical dashed identifier raises `InvalidNotionIdentifier` (carrying
the whole URL) rather than returning the identifier, because the final
`split("-")[-1]` keeps only the last dashed group. -/
theorem claim_C3_counterexample :
    extract_id
      (toL "https://www.notion.so/My-Page-12345678-1234-5678-1234-567812345678") =
      Except.error
        (toL "https://www.notion.so/My-Page-12345678-1234-5678-1234-567812345678") :=
  rfl

/-- Claim C3, amended: for every 128-bit identifier embedded in its
undashed 32-hex-digit form, each supported URL shape — plain page URL,
`#blockid` fragment, legacy `&p=` parameter, hyphenated-slug URL ending
in the undashed identifier — resolves to the canonical dashed-lowercase
form of that identifier (not to the embedded text itself). -/
theorem claim_C3_amended (n : Nat) (hn : n < 2 ^ 128) :
    extract_id (BASE_URL ++ ('/' :: toHexPad 32 n)) =
      Except.ok (uuidStr n) ∧
    extract_id (BASE_URL ++ ('/' :: (toL "Slug-abc" ++
      ('#' :: toHexPad 32 n)))) = Except.ok (uuidStr n) ∧
    extract_id (BASE_URL ++ ('/' :: (toL "Page?foo=1" ++
      (AMP_P ++ toHexPad 32 n)))) = Except.ok (uuidStr n) ∧
    extract_id (BASE_URL ++ ('/' :: (toL "My-Page-" ++ toHexPad 32 n))) =
      Except.ok (uuidStr n) := by
  have hu : ∀ c ∈ toHexPad 32 n, c ∉ badChars := fun c hc =>
    (toHexPad_safe c hc).1
  have hok : ∀ R : PyStr,
      urlTransformChain (BASE_URL ++ R) = toHexPad 32 n →
      extract_id (BASE_URL ++ R) = Except.ok (uuidStr n) := by
    intro R hch
    have hpre : BASE_URL.isPrefixOf (BASE_URL ++ R) = true := by
      rw [ List.isPrefixOf_iff_prefix]
      exact List.prefix_append _ _
    unfold urlTransformChain at hch
    simp only [extract_id]
    rw [if_pos hpre, hch, pyUUID_toHexPad hn]
  exact ⟨hok _ (chain_plain hu), hok _ (chain_fragment hu),
    hok _ (chain_legacy hu), hok _ (chain_slug hu)⟩

/-- Claim C3, witness for the amended theorem at the identifier 3. -/
theorem claim_C3_witness :
    3 < 2 ^ 128 ∧
    (extract_id (BASE_URL ++ ('/' :: toHexPad 32 3)) =
      Except.ok (uuidStr 3) ∧
    extract_id (BASE_URL ++ ('/' :: (toL "Slug-abc" ++
      ('#' :: toHexPad 32 3)))) = Except.ok (uuidStr 3) ∧
    extract_id (BASE_URL ++ ('/' :: (toL "Page?foo=1" ++
      (AMP_P ++ toHexPad 32 3)))) = Except.ok (uuidStr 3) ∧
    extract_id (BASE_URL ++ ('/' :: (toL "My-Page-" ++ toHexPad 32 3))) =
      Except.ok (uuidStr 3)) :=
  ⟨by norm_num, claim_C3_amended 3 (by norm_num)⟩

/-- Claim C4: whenever `extract_id` fails, the raised
`InvalidNotionIdentifier` carries exactly the original input string,
not the intermediate stripped form. -/
theorem claim_C4_error_carries_original (s e : PyStr)
    (h : extract_id s = Except.error e) : e = s := by
  simp only [extract_id] at h
  split at h
  · exact absurd h (by simp)
  · injection h with h1
    exact h1.symm

/-- Claim C4, witness: a URL-shaped failing input whose stripped form
(`"Page"`) differs from the original; the error carries the original. -/
theorem claim_C4_witness :
    extract_id (toL "https://www.notion.so/My-Page") =
      Except.error (toL "https://www.notion.so/My-Page") ∧
    toL "https://www.notion.so/My-Page" =
      toL "https://www.notion.so/My-Page" :=
  ⟨rfl, claim_C4_error_carries_original
    (toL "https://www.notion.so/My-Page")
    (toL "https://www.notion.so/My-Page") rfl⟩

/-- Claim C5: a bare canonical identifier (dashed lowercase 8-4-4-4-12
rendering of a 128-bit value) passes through the URL-stripping step
unchanged and is returned as-is: `extract_id` is the identity on
canonical identifiers. -/
theorem claim_C5_idempotent_on_canonical (n : Nat) (hn : n < 2 ^ 128) :
    extract_id (uuidStr n) = Except.ok (uuidStr n) := by
  have hpre : ¬ BASE_URL.isPrefixOf (uuidStr n) = true := by
    intro hp
    rcases List.isPrefixOf_iff_prefix.mp hp with ⟨u, hu⟩
    have hh : 'h' ∈ uuidStr n := by
      rw [← hu]
      exact List.mem_append_left _ (by decide)
    rcases uuidStr_mem hh with h | ⟨d, hd, h⟩
    · exact absurd h (by decide)
    · exact (hexChar_facts d hd).1
        (h ▸ show ('h' : Char) ∈ badChars from by decide)
  simp only [extract_id]
  rw [if_neg hpre, pyUUID_uuidStr hn]

/-- Claim C5, witness at the identifier 5. -/
theorem claim_C5_witness :
    extract_id (uuidStr 5) = Except.ok (uuidStr 5) :=
  claim_C5_idempotent_on_canonical 5 (by norm_num)

/-- Claim C6: on every input that starts with the service base-URL
prefix, `extract_id` is exactly `uuid.UUID` parsing applied to the
five-stage transform chain — after the last `#`, after the last `/`,
after the last `&p=`, before the first `?`, after the last `-` — in
that order. -/
theorem claim_C6_transform_order (s : PyStr)
    (h : BASE_URL.isPrefixOf s = true) :
    extract_id s =
      (match pyUUID (urlTransformChain s) with
      | some n => Except.ok (uuidStr n)
      | Option.none => Except.error s) := by
  simp only [extract_id, urlTransformChain]
  rw [if_pos h]

/-- Claim C6, witness at a concrete prefixed input. -/
theorem claim_C6_witness :
    BASE_URL.isPrefixOf (toL "https://www.notion.so/x") = true ∧
    extract_id (toL "https://www.notion.so/x") =
      (match pyUUID (urlTransformChain (toL "https://www.notion.so/x")) with
      | some n => Except.ok (uuidStr n)
      | Option.none => Except.error (toL "https://www.notion.so/x")) :=
  ⟨rfl, claim_C6_transform_order (toL "https://www.notion.so/x") rfl⟩

/-- Claim C7, counterexample: the empty-string path does not always
return the default.  It is the lookup of key `""`, so on a mapping that
has that key the stored value (`7`) is returned, not the default
(`0`). -/
theorem claim_C7_counterexample :
    get_by_path (.str (toL "")) (PyVal.dict [(toL "", PyVal.int 7)])
      (PyVal.int 0) = Except.ok (PyVal.int 7) := rfl

/-- Claim C7, amended: the empty-string path splits into the single
empty segment, treated as a lookup of key `""`: on a mapping it yields
the value stored under `""` when present and the default otherwise; on
a sequence `int("")` raises an uncaught `ValueError`; on a
non-indexable node the default is returned.  The target itself is never
returned by consuming the segment. -/
theorem claim_C7_amended (obj d : PyVal) :
    get_by_path (.str (toL "")) obj d =
      (match obj with
      | PyVal.dict kvs =>
        (match kvs.lookup (toL "") with
        | some v => Except.ok v
        | Option.none => Except.ok d)
      | PyVal.list _ => Except.error PyExn.valueError
      | _ => Except.ok d) := by
  cases obj with
  | dict kvs =>
    rcases hk : kvs.lookup ([] : List Char) with _ | v
    · simp [get_by_path_eq, loopGo, stepKey, segsOf, pySplitChar, toL, hk]
    · simp [get_by_path_eq, loopGo, stepKey, segsOf, pySplitChar, toL, hk]
  | none => rfl
  | bool b => rfl
  | int m => rfl
  | str s => rfl
  | list xs => rfl

/-- Claim C8: `get_by_path` never mutates its target.  In the
locals-threaded embedding, the `obj` local after the call — whether the
traversal succeeded, was caught by the `except` clause, or raised —
is the object passed in. -/
theorem claim_C8_no_mutation (p : PathArg) (obj default : PyVal) :
    ((get_by_path_locals p obj default).1).obj = obj := by
  unfold get_by_path_locals
  have h := loopGo_obj (segsOf p) ⟨obj, obj⟩
  rcases hL : loopGo (segsOf p) ⟨obj, obj⟩ with ⟨l, oe⟩
  rw [hL] at h
  cases oe with
  | none => exact h
  | some e => cases e <;> exact h

/-- Claim C9, counterexample: the contrast clause fails — the
empty-string path does not return the default on a mapping holding the
key `""`; it returns the stored value. -/
theorem claim_C9_counterexample :
    get_by_path (.str (toL "")) (PyVal.dict [(toL "", PyVal.str (toL "x"))])
      PyVal.none = Except.ok (PyVal.str (toL "x")) := rfl

/-- Claim C9, amended: an empty pre-split segment sequence consumes no
segments and returns the target itself; the empty-string path instead
consumes one empty-string segment — it behaves exactly as the pre-split
path `[""]` (a key-`""` lookup), not as the empty sequence. -/
theorem claim_C9_amended (obj d : PyVal) :
    get_by_path (.list []) obj d = Except.ok obj ∧
    get_by_path (.str (toL "")) obj d =
      get_by_path (.list [toL ""]) obj d := by
  exact ⟨rfl, rfl⟩

/-- Claim C10: `extract_id` succeeds on a `urn:uuid:`-prefixed dashed
identifier — an input that is neither the canonical dashed rendering
(length 36) nor the plain undashed 32-hex-digit rendering (length 32),
and carries no URL prefix — returning the canonical dashed-lowercase
form. -/
theorem claim_C10_lenient_uuid_forms :
    extract_id (toL "urn:uuid:12345678-1234-5678-1234-567812345678") =
      Except.ok (toL "12345678-1234-5678-1234-567812345678") ∧
    (toL "urn:uuid:12345678-1234-5678-1234-567812345678").length = 45 ∧
    (¬ BASE_URL.isPrefixOf
      (toL "urn:uuid:12345678-1234-5678-1234-567812345678") = true) ∧
    (∀ n : Nat,
      toL "urn:uuid:12345678-1234-5678-1234-567812345678" ≠ uuidStr n) ∧
    (∀ n : Nat,
      toL "urn:uuid:12345678-1234-5678-1234-567812345678" ≠
        toHexPad 32 n) := by
  refine ⟨rfl, rfl, by decide, ?_, ?_⟩
  · intro n h
    have hl := congrArg List.length h
    rw [uuidStr_length] at hl
    exact absurd hl (by decide)
  · intro n h
    have hl := congrArg List.length h
    rw [toHexPad_length] at hl
    exact absurd hl (by decide)

end NotionUtils
